import Mathlib

/-!
Shallow embedding of the C teaching programs of this repository
(searching, sorting, dynamic array, linked list, math utilities,
file copy), together with proofs of the specification claims
about them.

Modelling conventions:
* C `int` values are modelled as `Int`; loop counters and sizes that
  the programs keep non-negative (`size_t`, array indices) are `Nat`.
  C's truncating division on the non-negative operands the programs
  use is `Int.tdiv`, which there agrees with mathematical division.
* A C array of `int` together with its length is a `List Int`;
  reading `arr[i]` is `List.getD i 0` and writing is `List.set`.
* A `while`/`for` loop becomes a recursive function on the same
  state variables, with the loop condition as the `if` guard.
* Fallible C functions (returning `NULL`, `false` or `-1`) return
  `Option`/`Bool × _`/`Int` exactly as the code does; `malloc`
  outcomes are explicit boolean oracle parameters where a claim
  is about allocation failure.
-/

namespace CCode

/-! ## src/data-structures/beginner/searching.c -/

/-- Loop body of `linear_search`: `for (i = 0; i < size; i++)`
checking `arr[i] == target`. -/
def ls_loop (arr : List Int) (size : Nat) (target : Int) (i : Nat) : Int :=
  if i < size then
    if arr.getD i 0 = target then (i : Int) else ls_loop arr size target (i + 1)
  else -1
termination_by size - i

/-- `linear_search` from searching.c: sequential scan, index or -1. -/
def linear_search (arr : List Int) (size : Nat) (target : Int) : Int :=
  ls_loop arr size target 0

/-- `binary_search_recursive` from searching.c. `left`/`right` are C
`int`s (so possibly -1); the local `mid = left + (right - left) / 2`
(C's truncating division) is written out at each use site. -/
def binary_search_recursive (arr : List Int) (left right : Int) (target : Int) : Int :=
  if left > right then -1
  else if arr.getD (left + (right - left).tdiv 2).toNat 0 = target then
    left + (right - left).tdiv 2
  else if arr.getD (left + (right - left).tdiv 2).toNat 0 < target then
    binary_search_recursive arr (left + (right - left).tdiv 2 + 1) right target
  else
    binary_search_recursive arr left (left + (right - left).tdiv 2 - 1) target
termination_by (right + 1 - left).toNat
decreasing_by
  all_goals
    simp only [not_lt] at *
    have hd : (0 : Int) ≤ right - left := by omega
    have := Int.tdiv_eq_ediv hd (by norm_num : (0:Int) ≤ 2)
    omega

/-- The `while (left <= right)` loop of the iterative `binary_search`:
state is the pair `left`, `right`, with `mid` written out as above. -/
def bs_loop (arr : List Int) (target : Int) (left right : Int) : Int :=
  if left ≤ right then
    if arr.getD (left + (right - left).tdiv 2).toNat 0 = target then
      left + (right - left).tdiv 2
    else if arr.getD (left + (right - left).tdiv 2).toNat 0 < target then
      bs_loop arr target (left + (right - left).tdiv 2 + 1) right
    else
      bs_loop arr target left (left + (right - left).tdiv 2 - 1)
  else -1
termination_by (right + 1 - left).toNat
decreasing_by
  all_goals
    have hd : (0 : Int) ≤ right - left := by omega
    have := Int.tdiv_eq_ediv hd (by norm_num : (0:Int) ≤ 2)
    omega

/-- `binary_search` (iterative) from searching.c: starts with
`left = 0`, `right = size - 1`. -/
def binary_search (arr : List Int) (size : Int) (target : Int) : Int :=
  bs_loop arr target 0 (size - 1)

/-! ## src/data-structures/beginner/sorting.c -/

/-- The three-assignment swap (`temp = arr[a]; arr[a] = arr[b];
arr[b] = temp`) used by bubble_sort and selection_sort. -/
def swap (l : List Int) (a b : Nat) : List Int :=
  (l.set a (l.getD b 0)).set b (l.getD a 0)

/-- Inner pass of `bubble_sort`: `for (j = 0; j < bound; j++)` swapping
adjacent out-of-order elements and recording whether any swap happened. -/
def bpass (l : List Int) (bound : Nat) (j : Nat) (swapped : Bool) : List Int × Bool :=
  if j < bound then
    if l.getD (j + 1) 0 < l.getD j 0 then bpass (swap l j (j + 1)) bound (j + 1) true
    else bpass l bound (j + 1) swapped
  else (l, swapped)
termination_by bound - j

/-- Outer loop of `bubble_sort`: pass `i` runs the inner loop up to
`size - i - 1`; when the pass reports a swap the loop continues,
otherwise it stops early (the `break`). -/
def bub_loop (l : List Int) (size : Nat) (i : Nat) : List Int :=
  if i + 1 < size then
    match bpass l (size - i - 1) 0 false with
    | (l2, true) => bub_loop l2 size (i + 1)
    | (l2, false) => l2
  else l
termination_by size - i

/-- `bubble_sort` from sorting.c. -/
def bubble_sort (l : List Int) (size : Nat) : List Int :=
  bub_loop l size 0

/-- Inner loop of `selection_sort`: `for (j = j0; j < size; j++)`
tracking the index `m` of the least element seen so far. -/
def sel_find (l : List Int) (size : Nat) (j m : Nat) : Nat :=
  if j < size then
    sel_find l size (j + 1) (if l.getD j 0 < l.getD m 0 then j else m)
  else m
termination_by size - j

/-- Outer loop of `selection_sort`: find the minimum of the unsorted
suffix (`min_idx = sel_find l size (i+1) i`, written out at each use
site) and swap it to position `i` (only when `min_idx != i`). -/
def sel_loop (l : List Int) (size : Nat) (i : Nat) : List Int :=
  if i + 1 < size then
    sel_loop
      (if sel_find l size (i + 1) i ≠ i then swap l i (sel_find l size (i + 1) i) else l)
      size (i + 1)
  else l
termination_by size - i

/-- `selection_sort` from sorting.c. -/
def selection_sort (l : List Int) (size : Nat) : List Int :=
  sel_loop l size 0

/-- Shifting loop of `insertion_sort`:
`while (j >= 0 && arr[j] > key) { arr[j+1] = arr[j]; j--; }`.
Returns the final array and the final value of `j`. -/
def ins_while (l : List Int) (key : Int) (j : Int) : List Int × Int :=
  if 0 ≤ j ∧ key < l.getD j.toNat 0 then
    ins_while (l.set (j.toNat + 1) (l.getD j.toNat 0)) key (j - 1)
  else (l, j)
termination_by (j + 1).toNat
decreasing_by omega

/-- Body of the outer loop of `insertion_sort` at index `i`:
`key = arr[i]; j = i - 1;` shift, then `arr[j+1] = key`. -/
def ins_step (l : List Int) (i : Nat) : List Int :=
  let key := l.getD i 0
  let p := ins_while l key ((i : Int) - 1)
  p.1.set (p.2 + 1).toNat key

/-- Outer loop of `insertion_sort`: `for (i = 1; i < size; i++)`. -/
def ins_loop (l : List Int) (size : Nat) (i : Nat) : List Int :=
  if i < size then ins_loop (ins_step l i) size (i + 1) else l
termination_by size - i

/-- `insertion_sort` from sorting.c. -/
def insertion_sort (l : List Int) (size : Nat) : List Int :=
  ins_loop l size 1

/-- Helper for reasoning about `ins_while`, processing the prefix from
the right: elements greater than `key` are passed over, `key` is placed
after the first element (from the right) not greater than it. -/
def insRAux (key : Int) : List Int → List Int
  | [] => [key]
  | a :: t => if key < a then a :: insRAux key t else key :: a :: t

/-- Insertion of `key` into `c` scanning from the right, as the C
shifting loop does. -/
def insR (key : Int) (c : List Int) : List Int :=
  (insRAux key c.reverse).reverse

/-! ## src/exercises/intermediate/ex01_dynamic_array.c -/

/-- The `DynamicArray` struct: `data` models the allocated block
(one list entry per allocated slot), `size` the number of elements
in use, `capacity` the allocation size. -/
structure DynamicArray where
  data : List Int
  size : Nat
  capacity : Nat
deriving DecidableEq, Repr

/-- `create_array`: the two `malloc` outcomes are the oracle booleans
`m1` (struct) and `m2` (data block); failure of either yields `NULL`
(`none`). Fresh memory is modelled as zero-filled. -/
def create_array (m1 m2 : Bool) (initial_capacity : Nat) : Option DynamicArray :=
  if m1 = false then none
  else if m2 = false then none
  else some ⟨List.replicate initial_capacity 0, 0, initial_capacity⟩

/-- `resize_array`: refuses a new capacity below the current size,
otherwise reallocates (`realloc` keeps the first
`min old-capacity new-capacity` slots; the model lets the
reallocation itself succeed). -/
def resize_array (arr : DynamicArray) (new_capacity : Nat) : Option DynamicArray :=
  if new_capacity < arr.size then none
  else some ⟨arr.data.take new_capacity ++
             List.replicate (new_capacity - arr.data.length) 0,
             arr.size, new_capacity⟩

/-- The right-shift loop of `insert`:
`for (i = size; i > index; i--) data[i] = data[i-1]`. -/
def shiftR (d : List Int) (index : Nat) (i : Nat) : List Int :=
  if index < i then shiftR (d.set i (d.getD (i - 1) 0)) index (i - 1) else d
termination_by i

/-- The left-shift loop of `delete`:
`for (i = index; i < stop; i++) data[i] = data[i+1]`. -/
def shiftL (d : List Int) (i : Nat) (stop : Nat) : List Int :=
  if i < stop then shiftL (d.set i (d.getD (i + 1) 0)) (i + 1) stop else d
termination_by stop - i

/-- `append`: double the capacity when full, then store at `size`. -/
def append (arr : DynamicArray) (value : Int) : Bool × DynamicArray :=
  match (if arr.size ≥ arr.capacity then resize_array arr (arr.capacity * 2)
         else some arr) with
  | none => (false, arr)
  | some a2 => (true, ⟨a2.data.set a2.size value, a2.size + 1, a2.capacity⟩)

/-- `insert`: reject `index > size`, double the capacity when full,
shift right, store at `index`. -/
def insert (arr : DynamicArray) (index : Nat) (value : Int) : Bool × DynamicArray :=
  if index > arr.size then (false, arr)
  else
    match (if arr.size ≥ arr.capacity then resize_array arr (arr.capacity * 2)
           else some arr) with
    | none => (false, arr)
    | some a2 =>
      (true, ⟨(shiftR a2.data index a2.size).set index value, a2.size + 1, a2.capacity⟩)

/-- `delete`: reject `index >= size`, shift left, decrement `size`,
and halve the capacity when `capacity > 4 && size < capacity / 4`
(a failed shrink is ignored, as in the code). -/
def delete (arr : DynamicArray) (index : Nat) : Bool × DynamicArray :=
  if index ≥ arr.size then (false, arr)
  else
    let a2 : DynamicArray :=
      ⟨shiftL arr.data index (arr.size - 1), arr.size - 1, arr.capacity⟩
    if 4 < arr.capacity ∧ a2.size < arr.capacity / 4 then
      match resize_array a2 (arr.capacity / 2) with
      | none => (true, a2)
      | some a3 => (true, a3)
    else (true, a2)

/-- `get`: writes `data[index]` through the `value` pointer and returns
`true`; on an out-of-range index it returns `false` and leaves the
pointed-to cell unchanged. The result is the pair (returned boolean,
cell contents after the call); the `arr == NULL`/`value == NULL`
guards have no counterpart because the model passes both by value. -/
def get (arr : DynamicArray) (index : Nat) (value : Int) : Bool × Int :=
  if index ≥ arr.size then (false, value) else (true, arr.data.getD index 0)

/-- One dynamic-array mutating operation, for stating invariants over
operation sequences. -/
inductive DynOp where
  | opAppend (value : Int)
  | opInsert (index : Nat) (value : Int)
  | opDelete (index : Nat)
deriving DecidableEq, Repr

/-- Apply one operation, keeping the success flag the C function returns. -/
def apply_op (arr : DynamicArray) : DynOp → Bool × DynamicArray
  | DynOp.opAppend v => append arr v
  | DynOp.opInsert i v => insert arr i v
  | DynOp.opDelete i => delete arr i

/-- Run a sequence of operations (a failed operation leaves the array
unchanged, exactly as the C functions do). -/
def run_ops (arr : DynamicArray) : List DynOp → DynamicArray
  | [] => arr
  | op :: rest => run_ops (apply_op arr op).2 rest

/-! ## src/exercises/intermediate/ex02_linked_list.c

A heap-allocated singly linked list reachable from `head` is modelled
by the list of its `data` fields. -/

/-- `create_node`: `malloc` outcome is the oracle `m`; on success the
fresh node has the given data and a `NULL` next pointer (a one-node
chain). -/
def create_node (m : Bool) (data : Int) : Option (List Int) :=
  if m = false then none else some [data]

/-- The search-and-unlink loop of `delete_node`: walks
`current->next`, unlinking the first node whose data matches. Returns
the C function's boolean result and the updated chain. -/
def dn_loop (data : Int) : List Int → Bool × List Int
  | [] => (false, [])
  | b :: rest =>
    if b = data then (true, rest)
    else
      let p := dn_loop data rest
      (p.1, b :: p.2)

/-- `delete_node` from ex02_linked_list.c: remove the first node
holding `data`, returning whether one was found. -/
def delete_node (l : List Int) (data : Int) : Bool × List Int :=
  match l with
  | [] => (false, [])
  | a :: rest =>
    if a = data then (true, rest)
    else
      let p := dn_loop data rest
      (p.1, a :: p.2)

/-- The pointer-reversal loop of `reverse_list`: `prev` accumulates the
already-reversed nodes, `current` walks the remainder. -/
def rev_loop (prev : List Int) : List Int → List Int
  | [] => prev
  | c :: next => rev_loop (c :: prev) next

/-- `reverse_list` from ex02_linked_list.c. -/
def reverse_list (l : List Int) : List Int :=
  rev_loop [] l

/-! ## src/fundamentals/intermediate/math_utils.c -/

/-- `divide`: guarded division. The C `double` result is modelled as a
rational; the guard structure is exactly the code's. -/
def divide (a b : Int) : ℚ :=
  if b = 0 then 0 else (a : ℚ) / (b : ℚ)

/-- Trial-division loop of `is_prime`:
`for (i = 5; i * i <= n; i += 6)` testing divisibility by `i` and
`i + 2`. -/
def ip_loop (n : Int) (i : Int) : Bool :=
  if i * i ≤ n then
    if n % i = 0 ∨ n % (i + 2) = 0 then false else ip_loop n (i + 6)
  else true
termination_by (n + 7 - i).toNat
decreasing_by
  have hii : i * i ≤ n := by assumption
  have hin : i ≤ n := by nlinarith [mul_self_nonneg i, hii]
  omega

/-- `is_prime` from math_utils.c. -/
def is_prime (n : Int) : Bool :=
  if n ≤ 1 then false
  else if n ≤ 3 then true
  else if n % 2 = 0 ∨ n % 3 = 0 then false
  else ip_loop n 5

/-- The `while (!is_prime(candidate)) candidate++;` loop of
`next_prime`, modelled with a step budget that `next_prime` sets high
enough (Bertrand's postulate, proved below, shows the budget is never
exhausted, so this is the C loop). -/
def np_loop (fuel : Nat) (candidate : Int) : Int :=
  match fuel with
  | 0 => candidate
  | fuel + 1 => if is_prime candidate then candidate else np_loop fuel (candidate + 1)

/-- `next_prime` from math_utils.c. -/
def next_prime (n : Int) : Int :=
  if n < 2 then 2 else np_loop (2 * (n.toNat + 2)) (n + 1)

/-! ## src/exercises/intermediate/ex03_file_copy.c

The file system is a partial map from paths (opaque identifiers,
modelled as `Nat`) to byte lists; `fopen` on a missing source fails,
opening the destination for writing is an oracle boolean
(permissions, disk state). -/

/-- The chunked `fread`/`fwrite` loop of `copy_file`, 8192 bytes at a
time. -/
def copy_loop (content : List Nat) (acc : List Nat) : List Nat :=
  if content = [] then acc
  else copy_loop (content.drop 8192) (acc ++ content.take 8192)
termination_by content.length
decreasing_by
  have h : content ≠ [] := by assumption
  have hpos : 0 < content.length := List.length_pos.mpr h
  simp only [List.length_drop]
  omega

/-- `copy_file` from ex03_file_copy.c: returns the C result code and
the file system after the call. `balloc` is the buffer `malloc`
outcome, `wopen` the destination `fopen` outcome. -/
def copy_file (fs : Nat → Option (List Nat)) (source_path dest_path : Nat)
    (balloc wopen : Bool) : Int × (Nat → Option (List Nat)) :=
  if balloc = false then (-1, fs)
  else
    match fs source_path with
    | none => (-1, fs)
    | some content =>
      if wopen = false then (-1, fs)
      else (0, fun p => if p = dest_path then some (copy_loop content []) else fs p)

/-! ## Linked-list reversal (claim C10) -/

theorem rev_loop_eq (l : List Int) : ∀ prev : List Int, rev_loop prev l = l.reverse ++ prev := by
  induction l with
  | nil => intro prev; simp [rev_loop]
  | cons a t ih => intro prev; simp [rev_loop, ih]

/-- C10: `reverse_list` sends a list holding the values `v1, ..., vn` to
one holding `vn, ..., v1`, and applying it twice restores the original
sequence of values. -/
theorem reverse_list_correct (l : List Int) :
    reverse_list l = l.reverse ∧ reverse_list (reverse_list l) = l := by
  constructor
  · simp [reverse_list, rev_loop_eq]
  · simp [reverse_list, rev_loop_eq]

/-! ## Guarded division (claim C9) -/

/-- C9: `divide` is total: it returns `(double)a / b` whenever `b` is
non-zero and `0.0` when `b` is zero, so the division is never executed
with a zero divisor. -/
theorem divide_total (a b : Int) :
    (b ≠ 0 → divide a b = (a : ℚ) / (b : ℚ)) ∧ (b = 0 → divide a b = 0) := by
  constructor
  · intro h; simp [divide, h]
  · intro h; simp [divide, h]

theorem divide_total_witness :
    divide 7 2 = (7 : ℚ) / 2 ∧ divide 7 0 = 0 :=
  ⟨(divide_total 7 2).1 (by norm_num), (divide_total 7 0).2 rfl⟩

/-! ## Linked-list deletion (claim C5) -/

theorem dn_loop_not_mem (v : Int) : ∀ l : List Int, v ∉ l → dn_loop v l = (false, l) := by
  intro l
  induction l with
  | nil => intro _; rfl
  | cons b t ih =>
    intro h
    simp only [List.mem_cons, not_or] at h
    simp only [dn_loop]
    rw [if_neg (fun e => h.1 e.symm), ih h.2]

theorem dn_loop_mem (v : Int) :
    ∀ l : List Int, v ∈ l →
      ∃ p q, v ∉ p ∧ l = p ++ v :: q ∧ dn_loop v l = (true, p ++ q) := by
  intro l
  induction l with
  | nil => intro h; exact absurd h (List.not_mem_nil v)
  | cons b t ih =>
    intro h
    by_cases hb : b = v
    · subst hb
      exact ⟨[], t, by simp, by simp, by simp [dn_loop]⟩
    · have hm : v ∈ t := by
        rcases List.mem_cons.mp h with h1 | h1
        · exact absurd h1.symm hb
        · exact h1
      obtain ⟨p, q, hnp, heq, hdl⟩ := ih hm
      refine ⟨b :: p, q, ?_, by simp [heq], ?_⟩
      · simp only [List.mem_cons, not_or]
        exact ⟨fun e => hb e.symm, hnp⟩
      · simp [dn_loop, hb, hdl]

/-- C5: `delete_node` removes exactly the first node whose data equals
`v` and returns `true` when such a node exists; when no node holds `v`
(in particular on the empty list) it returns `false` and leaves the
list unchanged. -/
theorem delete_node_correct (l : List Int) (v : Int) :
    (v ∈ l → ∃ p q, v ∉ p ∧ l = p ++ v :: q ∧ delete_node l v = (true, p ++ q)) ∧
    (v ∉ l → delete_node l v = (false, l)) := by
  constructor
  · intro h
    cases l with
    | nil => exact absurd h (List.not_mem_nil v)
    | cons a t =>
      by_cases ha : a = v
      · subst ha
        exact ⟨[], t, by simp, by simp, by simp [delete_node]⟩
      · have hm : v ∈ t := by
          rcases List.mem_cons.mp h with h1 | h1
          · exact absurd h1.symm ha
          · exact h1
        obtain ⟨p, q, hnp, heq, hdl⟩ := dn_loop_mem v t hm
        refine ⟨a :: p, q, ?_, by simp [heq], ?_⟩
        · simp only [List.mem_cons, not_or]
          exact ⟨fun e => ha e.symm, hnp⟩
        · simp [delete_node, ha, hdl]
  · intro h
    cases l with
    | nil => rfl
    | cons a t =>
      simp only [List.mem_cons, not_or] at h
      simp only [delete_node]
      rw [if_neg (fun e => h.1 e.symm), dn_loop_not_mem v t h.2]

theorem delete_node_correct_witness :
    (∃ p q, (2 : Int) ∉ p ∧ ([1, 2, 2] : List Int) = p ++ 2 :: q ∧
      delete_node [1, 2, 2] 2 = (true, p ++ q)) ∧
    delete_node ([1, 3] : List Int) 2 = (false, [1, 3]) :=
  ⟨(delete_node_correct [1, 2, 2] 2).1 (by decide),
   (delete_node_correct [1, 3] 2).2 (by decide)⟩

/-! ## Failure return codes (claim C4) -/

/-- C4 counterexample: an out-of-range index does NOT make the
dynamic-array operations return `-1` or `NULL`: on the size-1 array
`[5]`, index 1 makes `get` return the boolean `false` and produce no
value (the caller's cell keeps its old content 7), and `insert` and
`delete` likewise return `false` with the array unchanged. No
index-taking operation of ex01_dynamic_array.c returns `-1` or a
pointer. -/
theorem error_code_counterexample :
    get ⟨[5], 1, 2⟩ 1 7 = (false, 7) ∧
    insert ⟨[5], 1, 2⟩ 2 9 = (false, ⟨[5], 1, 2⟩) ∧
    delete ⟨[5], 1, 2⟩ 1 = (false, ⟨[5], 1, 2⟩) := by
  decide

/-- C4 as amended: failures are signalled by each operation's
documented failure value: an out-of-range index makes the boolean
dynamic-array operations `get`, `insert` and `delete` return `false`
(`get` produces no value, the mutators leave the array unchanged) —
not `-1` or `NULL`; every allocation failure makes the constructors
`create_array`/`create_node` return `NULL` (`none`); every file-open
failure (missing source, or unopenable destination) makes `copy_file`
return `-1`. -/
theorem error_return_codes :
    (∀ (arr : DynamicArray) (index : Nat) (v : Int), arr.size ≤ index →
      get arr index v = (false, v)) ∧
    (∀ (arr : DynamicArray) (index : Nat) (v : Int), arr.size < index →
      insert arr index v = (false, arr)) ∧
    (∀ (arr : DynamicArray) (index : Nat), arr.size ≤ index →
      delete arr index = (false, arr)) ∧
    (∀ (m1 m2 : Bool) (c : Nat), m1 = false ∨ m2 = false → create_array m1 m2 c = none) ∧
    (∀ (m : Bool) (d : Int), m = false → create_node m d = none) ∧
    (∀ (fs : Nat → Option (List Nat)) (src dst : Nat) (wopen : Bool),
      fs src = none → (copy_file fs src dst true wopen).1 = -1) ∧
    (∀ (fs : Nat → Option (List Nat)) (src dst : Nat) (content : List Nat),
      fs src = some content → (copy_file fs src dst true false).1 = -1) := by
  refine ⟨?_, ?_, ?_, ?_, ?_, ?_, ?_⟩
  · intro arr index v h
    simp [get, h]
  · intro arr index v h
    simp [insert, h]
  · intro arr index h
    simp [delete, h]
  · intro m1 m2 c h
    rcases h with h | h
    · simp [create_array, h]
    · subst h; cases m1 <;> simp [create_array]
  · intro m d h
    simp [create_node, h]
  · intro fs src dst wopen h
    simp [copy_file, h]
  · intro fs src dst content h
    simp [copy_file, h]

theorem error_return_codes_witness :
    get ⟨[5], 1, 2⟩ 1 7 = (false, 7) ∧
    insert ⟨[5], 1, 2⟩ 2 9 = (false, ⟨[5], 1, 2⟩) ∧
    delete ⟨[5], 1, 2⟩ 1 = (false, ⟨[5], 1, 2⟩) ∧
    create_array false true 3 = none ∧
    create_node false 7 = none ∧
    (copy_file (fun _ => none) 0 1 true true).1 = -1 ∧
    (copy_file (fun _ => some [2]) 0 1 true false).1 = -1 :=
  ⟨error_return_codes.1 ⟨[5], 1, 2⟩ 1 7 (le_refl 1),
   error_return_codes.2.1 ⟨[5], 1, 2⟩ 2 9 (by decide),
   error_return_codes.2.2.1 ⟨[5], 1, 2⟩ 1 (le_refl 1),
   error_return_codes.2.2.2.1 false true 3 (Or.inl rfl),
   error_return_codes.2.2.2.2.1 false 7 rfl,
   error_return_codes.2.2.2.2.2.1 (fun _ => none) 0 1 true rfl,
   error_return_codes.2.2.2.2.2.2 (fun _ => some [2]) 0 1 [2] rfl⟩

/-! ## Dynamic-array resize policy (claim C3) -/

/-- C3 counterexample: after `create_array(4)` and one `append`,
deleting the only element leaves `size = 0`, which is below one quarter
of the capacity (`0 < 4 / 4`), yet the capacity stays 4: the code only
shrinks when `capacity > 4`. -/
theorem delete_halving_counterexample :
    create_array true true 4 = some ⟨List.replicate 4 0, 0, 4⟩ ∧
    append ⟨List.replicate 4 0, 0, 4⟩ 9 = (true, ⟨[9, 0, 0, 0], 1, 4⟩) ∧
    (delete ⟨[9, 0, 0, 0], 1, 4⟩ 0).1 = true ∧
    (delete ⟨[9, 0, 0, 0], 1, 4⟩ 0).2.size < 4 / 4 ∧
    (delete ⟨[9, 0, 0, 0], 1, 4⟩ 0).2.capacity = 4 := by
  refine ⟨by decide, by decide, ?_, ?_, ?_⟩ <;> simp [delete, shiftL]

/-- C3 as amended: `append` and `insert` on a full array double the
capacity before storing the element; a successful `delete` halves the
capacity exactly when the remaining size falls below one quarter of the
capacity (integer division) AND the capacity exceeds 4, and leaves it
unchanged otherwise. -/
theorem resize_policy (arr : DynamicArray) (value : Int) (index : Nat) :
    (arr.size = arr.capacity →
      (append arr value).1 = true ∧
      (append arr value).2.capacity = arr.capacity * 2 ∧
      (append arr value).2.size = arr.size + 1) ∧
    (arr.size = arr.capacity → index ≤ arr.size →
      (insert arr index value).1 = true ∧
      (insert arr index value).2.capacity = arr.capacity * 2 ∧
      (insert arr index value).2.size = arr.size + 1) ∧
    (index < arr.size →
      (delete arr index).1 = true ∧
      (delete arr index).2.size = arr.size - 1 ∧
      (delete arr index).2.capacity =
        (if 4 < arr.capacity ∧ arr.size - 1 < arr.capacity / 4 then arr.capacity / 2
         else arr.capacity)) := by
  cases arr with
  | mk d s c =>
    refine ⟨?_, ?_, ?_⟩
    · intro h
      simp only at h
      subst h
      have h1 : ¬ (s * 2 < s) := by omega
      simp [append, resize_array, h1]
    · intro h hidx
      simp only at h hidx
      subst h
      have h1 : ¬ (s * 2 < s) := by omega
      have h2 : ¬ (index > s) := by omega
      simp [insert, resize_array, h1, h2]
    · intro h
      simp only at h
      have h1 : ¬ (index ≥ s) := by omega
      by_cases h2 : 4 < c ∧ s - 1 < c / 4
      · have h3 : ¬ (c / 2 < s - 1) := by omega
        simp [delete, resize_array, h1, h2, h3]
      · simp [delete, resize_array, h1, h2]

theorem resize_policy_witness :
    (append ⟨[7, 8], 2, 2⟩ 9).1 = true ∧
    (append ⟨[7, 8], 2, 2⟩ 9).2.capacity = 2 * 2 ∧
    (insert ⟨[7, 8], 2, 2⟩ 0 9).1 = true ∧
    (delete ⟨[7, 8], 2, 2⟩ 0).1 = true := by
  obtain ⟨h1, h2, _⟩ := (resize_policy ⟨[7, 8], 2, 2⟩ 9 0).1 rfl
  obtain ⟨h4, _, _⟩ := (resize_policy ⟨[7, 8], 2, 2⟩ 9 0).2.1 rfl (Nat.zero_le 2)
  obtain ⟨h7, _, _⟩ := (resize_policy ⟨[7, 8], 2, 2⟩ 9 0).2.2 (by decide)
  exact ⟨h1, h2, h4, h7⟩

/-! ## Dynamic-array size/capacity invariant (claim C8) -/

/-- C8 counterexample: `create_array(0)` succeeds with capacity 0, and
the next `append` reports success (doubling 0 gives 0) yet leaves
`size = 1 > capacity = 0`: the claimed invariant fails for arrays
created with capacity 0. -/
theorem size_invariant_counterexample :
    create_array true true 0 = some ⟨[], 0, 0⟩ ∧
    (append ⟨[], 0, 0⟩ 5).1 = true ∧
    ¬ ((append ⟨[], 0, 0⟩ 5).2.size ≤ (append ⟨[], 0, 0⟩ 5).2.capacity) := by
  decide

theorem apply_op_preserves_invariant (arr : DynamicArray) (op : DynOp)
    (hsc : arr.size ≤ arr.capacity) (hc : 1 ≤ arr.capacity) :
    (apply_op arr op).2.size ≤ (apply_op arr op).2.capacity ∧
    1 ≤ (apply_op arr op).2.capacity := by
  cases arr with
  | mk d s c =>
    simp only at hsc hc
    cases op with
    | opAppend v =>
      by_cases h : s ≥ c
      · have h1 : ¬ (c * 2 < s) := by omega
        simp only [apply_op, append, resize_array, if_pos h, if_neg h1]
        constructor <;> omega
      · simp only [apply_op, append, if_neg h]
        constructor <;> omega
    | opInsert i v =>
      by_cases h0 : i > s
      · simp only [apply_op, insert, if_pos h0]
        exact ⟨hsc, hc⟩
      · by_cases h : s ≥ c
        · have h1 : ¬ (c * 2 < s) := by omega
          simp only [apply_op, insert, if_neg h0, if_pos h, resize_array, if_neg h1]
          constructor <;> omega
        · simp only [apply_op, insert, if_neg h0, if_neg h]
          constructor <;> omega
    | opDelete i =>
      by_cases h0 : i ≥ s
      · simp only [apply_op, delete, if_pos h0]
        exact ⟨hsc, hc⟩
      · by_cases h2 : 4 < c ∧ s - 1 < c / 4
        · have h3 : ¬ (c / 2 < s - 1) := by omega
          simp only [apply_op, delete, if_neg h0, if_pos h2, resize_array]
          simp only [if_neg h3]
          constructor <;> omega
        · simp only [apply_op, delete, if_neg h0, if_neg h2]
          constructor <;> omega

theorem run_ops_invariant : ∀ (ops : List DynOp) (arr : DynamicArray),
    arr.size ≤ arr.capacity → 1 ≤ arr.capacity →
    (run_ops arr ops).size ≤ (run_ops arr ops).capacity ∧
    1 ≤ (run_ops arr ops).capacity := by
  intro ops
  induction ops with
  | nil => intro arr h1 h2; exact ⟨h1, h2⟩
  | cons op rest ih =>
    intro arr h1 h2
    obtain ⟨h3, h4⟩ := apply_op_preserves_invariant arr op h1 h2
    exact ih (apply_op arr op).2 h3 h4

/-- C8 as amended: for every dynamic array created by `create_array`
with a POSITIVE initial capacity, any sequence of `append`, `insert`
and `delete` operations keeps `size ≤ capacity` (and `resize_array`
indeed refuses any new capacity smaller than the current size). The
positivity restriction is forced by `size_invariant_counterexample`. -/
theorem size_le_capacity_invariant (c : Nat) (hc : 1 ≤ c) (ops : List DynOp)
    (a0 : DynamicArray) (h0 : create_array true true c = some a0) :
    (run_ops a0 ops).size ≤ (run_ops a0 ops).capacity ∧
    (∀ (arr : DynamicArray) (nc : Nat), nc < arr.size → resize_array arr nc = none) := by
  have ha : a0 = ⟨List.replicate c 0, 0, c⟩ := by
    simp [create_array] at h0
    exact h0.symm
  subst ha
  refine ⟨(run_ops_invariant ops _ (Nat.zero_le c) hc).1, ?_⟩
  intro arr nc h
  simp [resize_array, h]

theorem size_le_capacity_invariant_witness :
    (run_ops ⟨List.replicate 2 0, 0, 2⟩
      [DynOp.opAppend 1, DynOp.opAppend 2, DynOp.opAppend 3, DynOp.opDelete 0]).size ≤
    (run_ops ⟨List.replicate 2 0, 0, 2⟩
      [DynOp.opAppend 1, DynOp.opAppend 2, DynOp.opAppend 3, DynOp.opDelete 0]).capacity :=
  (size_le_capacity_invariant 2 (by omega)
    [DynOp.opAppend 1, DynOp.opAppend 2, DynOp.opAppend 3, DynOp.opDelete 0]
    ⟨List.replicate 2 0, 0, 2⟩ rfl).1

/-! ## Linear search (claim C6) -/

theorem ls_loop_spec (arr : List Int) (target : Int) (i : Nat) :
    ((∃ k : Nat, i ≤ k ∧ k < arr.length ∧ arr.getD k 0 = target) →
      ∃ k : Nat, i ≤ k ∧ k < arr.length ∧ ls_loop arr arr.length target i = (k : Int) ∧
        arr.getD k 0 = target ∧ ∀ j : Nat, i ≤ j → j < k → arr.getD j 0 ≠ target) ∧
    ((∀ k : Nat, i ≤ k → k < arr.length → arr.getD k 0 ≠ target) →
      ls_loop arr arr.length target i = -1) := by
  induction i using ls_loop.induct arr arr.length target with
  | case1 x hlt heq =>
    constructor
    · intro _
      refine ⟨x, le_refl x, hlt, ?_, heq, ?_⟩
      · rw [ls_loop, if_pos hlt, if_pos heq]
      · intro j h1 h2; omega
    · intro hall
      exact absurd heq (hall x (le_refl x) hlt)
  | case2 x hlt hne ih =>
    constructor
    · rintro ⟨k, hk1, hk2, hk3⟩
      have hk1' : x + 1 ≤ k := by
        rcases Nat.eq_or_lt_of_le hk1 with h | h
        · exact absurd (h ▸ hk3) hne
        · omega
      obtain ⟨k2, h1, h2, h3, h4, h5⟩ := ih.1 ⟨k, hk1', hk2, hk3⟩
      refine ⟨k2, by omega, h2, ?_, h4, ?_⟩
      · rw [ls_loop, if_pos hlt, if_neg hne]; exact h3
      · intro j hj1 hj2
        rcases Nat.eq_or_lt_of_le hj1 with h | h
        · exact h ▸ hne
        · exact h5 j (by omega) hj2
    · intro hall
      rw [ls_loop, if_pos hlt, if_neg hne]
      exact ih.2 (fun k h1 h2 => hall k (by omega) h2)
  | case3 x hge =>
    constructor
    · rintro ⟨k, h1, h2, _⟩
      omega
    · intro _
      rw [ls_loop, if_neg hge]

/-- C6: on any array, `linear_search` returns the index of the first
occurrence of the target when one exists, and `-1` when the target is
absent. -/
theorem linear_search_correct (arr : List Int) (target : Int) :
    (target ∈ arr →
      ∃ k : Nat, k < arr.length ∧ linear_search arr arr.length target = (k : Int) ∧
        arr.getD k 0 = target ∧ ∀ j : Nat, j < k → arr.getD j 0 ≠ target) ∧
    (target ∉ arr → linear_search arr arr.length target = -1) := by
  constructor
  · intro h
    obtain ⟨n, hn, he⟩ := List.mem_iff_getElem.mp h
    have hd : arr.getD n 0 = target := by
      rw [List.getD_eq_getElem arr 0 hn]; exact he
    obtain ⟨k, _, hk2, hk3, hk4, hk5⟩ :=
      (ls_loop_spec arr target 0).1 ⟨n, Nat.zero_le n, hn, hd⟩
    exact ⟨k, hk2, hk3, hk4, fun j hj => hk5 j (Nat.zero_le j) hj⟩
  · intro h
    apply (ls_loop_spec arr target 0).2
    intro k _ hk he
    apply h
    rw [List.getD_eq_getElem arr 0 hk] at he
    exact he ▸ List.getElem_mem hk

theorem linear_search_correct_witness :
    (∃ k : Nat, k < ([4, 7, 7] : List Int).length ∧
      linear_search [4, 7, 7] ([4, 7, 7] : List Int).length 7 = (k : Int) ∧
      ([4, 7, 7] : List Int).getD k 0 = 7 ∧
      ∀ j : Nat, j < k → ([4, 7, 7] : List Int).getD j 0 ≠ 7) ∧
    linear_search [9] ([9] : List Int).length 5 = -1 :=
  ⟨(linear_search_correct [4, 7, 7] 7).1 (by decide),
   (linear_search_correct [9] 5).2 (by decide)⟩

/-! ## Binary search (claim C1) -/

theorem mid_bounds {left right : Int} (h : left ≤ right) :
    left ≤ left + (right - left).tdiv 2 ∧ left + (right - left).tdiv 2 ≤ right := by
  have hd : (0 : Int) ≤ right - left := by omega
  have := Int.tdiv_eq_ediv hd (by norm_num : (0 : Int) ≤ 2)
  omega

theorem sorted_getD_mono (arr : List Int) (hs : List.Sorted (fun a b => a ≤ b) arr)
    {i j : Nat} (hij : i ≤ j) (hj : j < arr.length) :
    arr.getD i 0 ≤ arr.getD j 0 := by
  rcases Nat.eq_or_lt_of_le hij with h | h
  · subst h; exact le_refl _
  · have hi : i < arr.length := lt_trans h hj
    rw [List.getD_eq_getElem arr 0 hi, List.getD_eq_getElem arr 0 hj]
    exact List.pairwise_iff_getElem.mp hs i j hi hj h

/-- The iterative loop computes exactly what the recursive version
computes: both implement the same interval-halving scheme. -/
theorem bs_loop_eq_rec (arr : List Int) (target : Int) :
    ∀ left right : Int,
      bs_loop arr target left right = binary_search_recursive arr left right target := by
  intro left right
  induction left, right using bs_loop.induct arr target with
  | case1 left right hle hhit =>
    rw [bs_loop, if_pos hle, if_pos hhit,
        binary_search_recursive, if_neg (not_lt.mpr hle), if_pos hhit]
  | case2 left right hle hne hlt ih =>
    rw [bs_loop, if_pos hle, if_neg hne, if_pos hlt,
        binary_search_recursive, if_neg (not_lt.mpr hle), if_neg hne, if_pos hlt]
    exact ih
  | case3 left right hle hne hge ih =>
    rw [bs_loop, if_pos hle, if_neg hne, if_neg hge,
        binary_search_recursive, if_neg (not_lt.mpr hle), if_neg hne, if_neg hge]
    exact ih
  | case4 left right hgt =>
    rw [bs_loop, if_neg hgt, binary_search_recursive, if_pos (not_le.mp hgt)]

theorem bsr_spec (arr : List Int) (target : Int)
    (hs : List.Sorted (fun a b => a ≤ b) arr) :
    ∀ left right : Int, 0 ≤ left → right < (arr.length : Int) →
      (∀ k : Nat, k < arr.length → arr.getD k 0 = target →
        left ≤ (k : Int) ∧ (k : Int) ≤ right) →
      (binary_search_recursive arr left right target = -1 →
        ∀ k : Nat, k < arr.length → arr.getD k 0 ≠ target) ∧
      (binary_search_recursive arr left right target ≠ -1 →
        0 ≤ binary_search_recursive arr left right target ∧
        (binary_search_recursive arr left right target).toNat < arr.length ∧
        arr.getD (binary_search_recursive arr left right target).toNat 0 = target) := by
  intro left right
  induction left, right, target using binary_search_recursive.induct arr with
  | case1 left right target hgt =>
    intro _ _ hwin
    have hres : binary_search_recursive arr left right target = -1 := by
      rw [binary_search_recursive, if_pos hgt]
    constructor
    · intro _ k hk hkt
      obtain ⟨hw1, hw2⟩ := hwin k hk hkt
      omega
    · intro hne
      exact absurd hres hne
  | case2 left right hgt =>
    intro h0 hlen hwin
    have hle : left ≤ right := not_lt.mp hgt
    obtain ⟨hm1, hm2⟩ := mid_bounds hle
    have hres : binary_search_recursive arr left right
        (arr.getD (left + (right - left).tdiv 2).toNat 0) =
        left + (right - left).tdiv 2 := by
      rw [binary_search_recursive, if_neg hgt, if_pos rfl]
    constructor
    · intro habs
      rw [hres] at habs
      omega
    · intro _
      rw [hres]
      exact ⟨by omega, by omega, rfl⟩
  | case3 left right target hgt hne hlt ih =>
    intro h0 hlen hwin
    have hle : left ≤ right := not_lt.mp hgt
    obtain ⟨hm1, hm2⟩ := mid_bounds hle
    have hres : binary_search_recursive arr left right target =
        binary_search_recursive arr (left + (right - left).tdiv 2 + 1) right target := by
      rw [binary_search_recursive, if_neg hgt, if_neg hne, if_pos hlt]
    have hwin2 : ∀ k : Nat, k < arr.length → arr.getD k 0 = target →
        left + (right - left).tdiv 2 + 1 ≤ (k : Int) ∧ (k : Int) ≤ right := by
      intro k hk hkt
      obtain ⟨hw1, hw2⟩ := hwin k hk hkt
      refine ⟨?_, hw2⟩
      by_contra hc
      have hkm : k ≤ (left + (right - left).tdiv 2).toNat := by omega
      have hmono := sorted_getD_mono arr hs hkm (by omega)
      rw [hkt] at hmono
      omega
    obtain ⟨ih1, ih2⟩ := ih (by omega) hlen hwin2
    rw [hres]
    exact ⟨ih1, ih2⟩
  | case4 left right target hgt hne hge ih =>
    intro h0 hlen hwin
    have hle : left ≤ right := not_lt.mp hgt
    obtain ⟨hm1, hm2⟩ := mid_bounds hle
    have hres : binary_search_recursive arr left right target =
        binary_search_recursive arr left (left + (right - left).tdiv 2 - 1) target := by
      rw [binary_search_recursive, if_neg hgt, if_neg hne, if_neg hge]
    have hwin2 : ∀ k : Nat, k < arr.length → arr.getD k 0 = target →
        left ≤ (k : Int) ∧ (k : Int) ≤ left + (right - left).tdiv 2 - 1 := by
      intro k hk hkt
      obtain ⟨hw1, hw2⟩ := hwin k hk hkt
      refine ⟨hw1, ?_⟩
      by_contra hc
      have hkm : (left + (right - left).tdiv 2).toNat ≤ k := by omega
      have hmono := sorted_getD_mono arr hs hkm hk
      rw [hkt] at hmono
      omega
    obtain ⟨ih1, ih2⟩ := ih (by omega) (by omega) hwin2
    rw [hres]
    exact ⟨ih1, ih2⟩

/-- C1: on a sorted array, both the iterative `binary_search` (called
as in the demo, with `size` the array length) and
`binary_search_recursive` (on the full interval `0 .. size-1`) return
an index holding the target when the target occurs, and `-1` when it
does not; moreover the two functions agree. -/
theorem binary_search_correct (arr : List Int) (target : Int)
    (hs : List.Sorted (fun a b => a ≤ b) arr) :
    binary_search arr (arr.length : Int) target =
      binary_search_recursive arr 0 ((arr.length : Int) - 1) target ∧
    (target ∈ arr →
      ∃ k : Nat, k < arr.length ∧
        binary_search_recursive arr 0 ((arr.length : Int) - 1) target = (k : Int) ∧
        arr.getD k 0 = target) ∧
    (target ∉ arr →
      binary_search_recursive arr 0 ((arr.length : Int) - 1) target = -1) := by
  have hspec := bsr_spec arr target hs 0 ((arr.length : Int) - 1)
    (by omega) (by omega)
    (by intro k hk _; omega)
  refine ⟨bs_loop_eq_rec arr target 0 ((arr.length : Int) - 1), ?_, ?_⟩
  · intro hmem
    obtain ⟨n, hn, he⟩ := List.mem_iff_getElem.mp hmem
    have hd : arr.getD n 0 = target := by
      rw [List.getD_eq_getElem arr 0 hn]; exact he
    by_cases hr : binary_search_recursive arr 0 ((arr.length : Int) - 1) target = -1
    · exact absurd hd (hspec.1 hr n hn)
    · obtain ⟨h1, h2, h3⟩ := hspec.2 hr
      exact ⟨(binary_search_recursive arr 0 ((arr.length : Int) - 1) target).toNat,
        h2, by omega, h3⟩
  · intro hmem
    by_contra hr
    obtain ⟨h1, h2, h3⟩ := hspec.2 hr
    apply hmem
    rw [List.getD_eq_getElem arr 0 h2] at h3
    exact h3 ▸ List.getElem_mem h2

theorem binary_search_correct_witness :
    (binary_search [2, 4, 6] (([2, 4, 6] : List Int).length : Int) 4 =
      binary_search_recursive [2, 4, 6] 0 ((([2, 4, 6] : List Int).length : Int) - 1) 4) ∧
    (∃ k : Nat, k < ([2, 4, 6] : List Int).length ∧
      binary_search_recursive [2, 4, 6] 0 ((([2, 4, 6] : List Int).length : Int) - 1) 4 =
        (k : Int) ∧
      ([2, 4, 6] : List Int).getD k 0 = 4) ∧
    binary_search_recursive [2, 4, 6] 0 ((([2, 4, 6] : List Int).length : Int) - 1) 5 = -1 :=
  ⟨(binary_search_correct [2, 4, 6] 4 (by decide)).1,
   (binary_search_correct [2, 4, 6] 4 (by decide)).2.1 (by decide),
   (binary_search_correct [2, 4, 6] 5 (by decide)).2.2 (by decide)⟩

/-! ## Primality testing and next_prime (claim C7) -/

/-- If the 6k±1 trial-division loop returns `true` starting at `i`,
then no value of the form `i + 6t` or `i + 2 + 6t` whose square is at
most `n` divides `n`. -/
theorem ip_loop_true_no_divisor (n : Int) :
    ∀ i : Int, 0 ≤ i → ip_loop n i = true →
      ∀ j : Int, (∃ t : Nat, j = i + 6 * t ∨ j = i + 2 + 6 * t) →
        j * j ≤ n → ¬ n % j = 0 := by
  intro i
  induction i using ip_loop.induct n with
  | case1 i hle hdv =>
    intro _ htrue
    rw [ip_loop, if_pos hle, if_pos hdv] at htrue
    simp at htrue
  | case2 i hle hdv ih =>
    intro hi htrue j hex hjj
    have htrue2 : ip_loop n (i + 6) = true := by
      rw [ip_loop, if_pos hle, if_neg hdv] at htrue
      exact htrue
    simp only [not_or] at hdv
    obtain ⟨t, ht | ht⟩ := hex
    · cases t with
      | zero =>
        have hj : j = i := by
          push_cast at ht
          omega
        exact fun hc => hdv.1 (hj ▸ hc)
      | succ t2 =>
        exact ih (by omega) htrue2 j ⟨t2, Or.inl (by push_cast at ht ⊢; omega)⟩ hjj
    · cases t with
      | zero =>
        have hj : j = i + 2 := by
          push_cast at ht
          omega
        exact fun hc => hdv.2 (hj ▸ hc)
      | succ t2 =>
        exact ih (by omega) htrue2 j ⟨t2, Or.inr (by push_cast at ht ⊢; omega)⟩ hjj
  | case3 i hgt =>
    intro hi _ j hex hjj
    exfalso
    obtain ⟨t, ht | ht⟩ := hex
    all_goals
      have hij : i ≤ j := by omega
      have hsq : i * i ≤ j * j := mul_self_le_mul_self hi hij
      exact hgt (by linarith)

/-- `is_prime n = true` really means `n` is prime (and at least 2). -/
theorem is_prime_sound (n : Int) (h : is_prime n = true) :
    2 ≤ n ∧ Nat.Prime n.toNat := by
  by_cases h1 : n ≤ 1
  · rw [is_prime, if_pos h1] at h
    simp at h
  · by_cases h3 : n ≤ 3
    · have : n = 2 ∨ n = 3 := by omega
      rcases this with rfl | rfl
      · exact ⟨by norm_num, by decide⟩
      · exact ⟨by norm_num, by decide⟩
    · rw [is_prime, if_neg h1, if_neg h3] at h
      by_cases hdv : n % 2 = 0 ∨ n % 3 = 0
      · rw [if_pos hdv] at h
        simp at h
      · rw [if_neg hdv] at h
        simp only [not_or] at hdv
        obtain ⟨hd2, hd3⟩ := hdv
        have hnn : (0 : Int) ≤ n := by omega
        have hNt : ((n.toNat : Int)) = n := Int.toNat_of_nonneg hnn
        refine ⟨by omega, ?_⟩
        rw [Nat.prime_def_le_sqrt]
        refine ⟨by omega, ?_⟩
        intro m hm2 hmsq hdvd
        have hmm : m * m ≤ n.toNat := Nat.le_sqrt.mp hmsq
        have hMdvd : (m : Int) ∣ n := by
          have := Int.natCast_dvd_natCast.mpr hdvd
          rwa [hNt] at this
        have hMmod : n % (m : Int) = 0 := Int.emod_eq_zero_of_dvd hMdvd
        have hMM : (m : Int) * (m : Int) ≤ n := by
          have h0 : ((m * m : Nat) : Int) ≤ ((n.toNat : Int)) := Nat.cast_le.mpr hmm
          push_cast at h0
          omega
        have hm2' : ¬ (2 ∣ m) := by
          intro hc
          apply hd2
          apply Int.emod_eq_zero_of_dvd
          have : (2 : Nat) ∣ n.toNat := dvd_trans hc hdvd
          have h2 := Int.natCast_dvd_natCast.mpr this
          rw [hNt] at h2
          exact_mod_cast h2
        have hm3' : ¬ (3 ∣ m) := by
          intro hc
          apply hd3
          apply Int.emod_eq_zero_of_dvd
          have : (3 : Nat) ∣ n.toNat := dvd_trans hc hdvd
          have h2 := Int.natCast_dvd_natCast.mpr this
          rw [hNt] at h2
          exact_mod_cast h2
        have hr : m % 6 = 1 ∨ m % 6 = 5 := by omega
        rcases hr with hr | hr
        · have hm7 : 7 ≤ m := by omega
          exact ip_loop_true_no_divisor n 5 (by norm_num) h (m : Int)
            ⟨(m - 7) / 6, Or.inr (by push_cast; omega)⟩ hMM hMmod
        · have hm5 : 5 ≤ m := by omega
          exact ip_loop_true_no_divisor n 5 (by norm_num) h (m : Int)
            ⟨(m - 5) / 6, Or.inl (by push_cast; omega)⟩ hMM hMmod

/-- The trial-division loop never declares a prime composite. -/
theorem ip_loop_of_prime (n : Int) (hp : Nat.Prime n.toNat) :
    ∀ i : Int, 5 ≤ i → ip_loop n i = true := by
  intro i
  induction i using ip_loop.induct n with
  | case1 i hle hdv =>
    intro hi
    exfalso
    have hii : i * i ≤ n := hle
    have hnn : (0 : Int) ≤ n := le_trans (mul_self_nonneg i) hii
    have hin : i + 2 < n := by nlinarith
    have key : ∀ d : Int, 2 ≤ d → d < n → n % d = 0 → False := by
      intro d h2 hdn hmod
      have hdvd : d ∣ n := Int.dvd_of_emod_eq_zero hmod
      have hdvdN : d.toNat ∣ n.toNat := by
        rw [← Int.toNat_of_nonneg (by omega : (0 : Int) ≤ d),
            ← Int.toNat_of_nonneg hnn] at hdvd
        exact Int.natCast_dvd_natCast.mp hdvd
      rcases Nat.Prime.eq_one_or_self_of_dvd hp d.toNat hdvdN with h | h <;> omega
    rcases hdv with h | h
    · exact key i (by omega) (by nlinarith) h
    · exact key (i + 2) (by omega) hin h
  | case2 i hle hdv ih =>
    intro hi
    rw [ip_loop, if_pos hle, if_neg hdv]
    exact ih (by omega)
  | case3 i hgt =>
    intro _
    rw [ip_loop, if_neg hgt]

/-- `is_prime` recognises every prime at least 2. -/
theorem is_prime_complete (n : Int) (h2 : 2 ≤ n) (hp : Nat.Prime n.toNat) :
    is_prime n = true := by
  by_cases h3 : n ≤ 3
  · rw [is_prime, if_neg (by omega : ¬ n ≤ 1), if_pos h3]
  · have hd : ∀ d : Nat, 2 ≤ d → (d : Int) < n → ¬ n % (d : Int) = 0 := by
      intro d hd2 hdn hc
      have hdvd : (d : Int) ∣ n := Int.dvd_of_emod_eq_zero hc
      have hdvdN : d ∣ n.toNat := by
        rw [← Int.toNat_of_nonneg (by omega : (0 : Int) ≤ n)] at hdvd
        exact Int.natCast_dvd_natCast.mp hdvd
      rcases Nat.Prime.eq_one_or_self_of_dvd hp d hdvdN with h | h <;> omega
    have hd2 : ¬ n % 2 = 0 := by
      have := hd 2 (le_refl 2) (by push_cast; omega)
      push_cast at this
      exact this
    have hd3 : ¬ n % 3 = 0 := by
      have := hd 3 (by norm_num) (by push_cast; omega)
      push_cast at this
      exact this
    rw [is_prime, if_neg (by omega : ¬ n ≤ 1), if_neg h3,
        if_neg (not_or.mpr ⟨hd2, hd3⟩)]
    exact ip_loop_of_prime n hp 5 (by norm_num)

/-- The candidate loop, run with enough budget to reach a known prime
`p`, stops at an `is_prime`-accepted value at least its start (and the
values it skipped are exactly `is_prime`-rejected, so the budgeted
recursion is the C `while` loop). -/
theorem np_loop_spec : ∀ (fuel : Nat) (c p : Int), c ≤ p → 2 ≤ p →
    Nat.Prime p.toNat → p < c + fuel →
    is_prime (np_loop fuel c) = true ∧ c ≤ np_loop fuel c := by
  intro fuel
  induction fuel with
  | zero =>
    intro c p h1 _ _ h4
    omega
  | succ fuel ih =>
    intro c p h1 h2 h3 h4
    by_cases hc : is_prime c = true
    · simp only [np_loop, if_pos hc]
      exact ⟨hc, le_refl c⟩
    · have hcp : c + 1 ≤ p := by
        rcases eq_or_lt_of_le h1 with h | h
        · exact absurd (h ▸ is_prime_complete p h2 h3) hc
        · omega
      obtain ⟨ha, hb⟩ := ih (c + 1) p hcp h2 h3 (by omega)
      simp only [np_loop, if_neg hc]
      exact ⟨ha, by omega⟩

/-- `next_prime n` is a prime strictly greater than `n`, for every
input: the candidate loop always reaches a prime. -/
theorem next_prime_correct (n : Int) :
    n < next_prime n ∧ is_prime (next_prime n) = true ∧
    Nat.Prime (next_prime n).toNat := by
  by_cases h2 : n < 2
  · rw [next_prime, if_pos h2]
    exact ⟨by omega, by decide, by decide⟩
  · obtain ⟨p, hp, hlt, hle⟩ :=
      Nat.exists_prime_lt_and_le_two_mul n.toNat (by omega)
    have hcast : ((n.toNat : Int)) = n := Int.toNat_of_nonneg (by omega)
    have h1 : n + 1 ≤ (p : Int) := by omega
    have hpt : ((p : Int)).toNat = p := Int.toNat_natCast p
    obtain ⟨ha, hb⟩ := np_loop_spec (2 * (n.toNat + 2)) (n + 1) (p : Int)
      h1 (by omega) (by rw [hpt]; exact hp) (by push_cast; omega)
    rw [next_prime, if_neg h2]
    obtain ⟨hc, hd⟩ := is_prime_sound _ ha
    exact ⟨by omega, ha, hd⟩

/-- C7: every operation runs to completion. `next_prime` reaches a
prime strictly greater than its argument for every input (so its
search loop terminates), and each recursive call of
`binary_search_recursive` acts on a strictly smaller interval
(measured by `(right + 1 - left).toNat`), so the recursion
terminates. -/
theorem termination_properties :
    (∀ n : Int, n < next_prime n ∧ is_prime (next_prime n) = true ∧
      Nat.Prime (next_prime n).toNat) ∧
    (∀ left right : Int, left ≤ right →
      ((right + 1) - (left + (right - left).tdiv 2 + 1)).toNat <
        ((right + 1) - left).toNat ∧
      (((left + (right - left).tdiv 2 - 1) + 1) - left).toNat <
        ((right + 1) - left).toNat) := by
  constructor
  · exact next_prime_correct
  · intro left right h
    obtain ⟨h1, h2⟩ := mid_bounds h
    omega

theorem termination_properties_witness :
    ((10 : Int) < next_prime 10 ∧ is_prime (next_prime 10) = true ∧
      Nat.Prime (next_prime 10).toNat) ∧
    ((5 + 1) - (0 + ((5 : Int) - 0).tdiv 2 + 1)).toNat < (((5 : Int) + 1) - 0).toNat ∧
    (((0 + ((5 : Int) - 0).tdiv 2 - 1) + 1) - 0).toNat < (((5 : Int) + 1) - 0).toNat :=
  ⟨termination_properties.1 10, termination_properties.2 0 5 (by norm_num)⟩

/-! ## Array-cell reasoning helpers (for the sorting proofs) -/

theorem getD_set_self (l : List Int) {i : Nat} (h : i < l.length) (v : Int) :
    (l.set i v).getD i 0 = v := by
  rw [List.getD_eq_getElem _ _ (by simpa using h)]
  exact List.getElem_set_self _

theorem getD_set_ne (l : List Int) {i j : Nat} (h : i ≠ j) (v : Int) :
    (l.set i v).getD j 0 = l.getD j 0 := by
  by_cases hj : j < l.length
  · rw [List.getD_eq_getElem _ _ (by simpa using hj), List.getD_eq_getElem _ _ hj]
    exact List.getElem_set_ne h _
  · rw [List.getD_eq_default _ _ (by simpa using not_lt.mp hj),
        List.getD_eq_default _ _ (not_lt.mp hj)]

theorem swap_length (l : List Int) (a b : Nat) : (swap l a b).length = l.length := by
  simp [swap]

theorem swap_getD_fst (l : List Int) {a b : Nat} (ha : a < l.length) (hab : a ≠ b) :
    (swap l a b).getD a 0 = l.getD b 0 := by
  unfold swap
  rw [getD_set_ne _ (fun e => hab e.symm), getD_set_self l ha]

theorem swap_getD_snd (l : List Int) {a b : Nat} (hb : b < l.length) :
    (swap l a b).getD b 0 = l.getD a 0 := by
  unfold swap
  exact getD_set_self _ (by simpa using hb) _

theorem swap_getD_other (l : List Int) {a b k : Nat} (h1 : k ≠ a) (h2 : k ≠ b) :
    (swap l a b).getD k 0 = l.getD k 0 := by
  unfold swap
  rw [getD_set_ne _ (fun e => h2 e.symm), getD_set_ne _ (fun e => h1 e.symm)]

theorem getD_cons_set_perm : ∀ (t : List Int) (k : Nat) (x : Int), k < t.length →
    List.Perm ((t.getD k 0) :: t.set k x) (x :: t) := by
  intro t
  induction t with
  | nil => intro k x h; simp at h
  | cons y t2 ih =>
    intro k x h
    cases k with
    | zero =>
      simp only [List.getD_cons_zero, List.set_cons_zero]
      exact List.Perm.swap x y t2
    | succ k2 =>
      have h2 : k2 < t2.length := by simpa using h
      rw [List.getD_cons_succ, List.set_cons_succ]
      exact (List.Perm.swap y _ _).trans (((ih k2 x h2).cons y).trans (List.Perm.swap _ _ _))

theorem swap_perm : ∀ (l : List Int) (a b : Nat), a < b → b < l.length →
    List.Perm (swap l a b) l := by
  intro l
  induction l with
  | nil => intro a b _ h; simp at h
  | cons x t ih =>
    intro a b hab hb
    cases a with
    | zero =>
      cases b with
      | zero => omega
      | succ b2 =>
        have hb2 : b2 < t.length := by simpa using hb
        show List.Perm
          (((x :: t).set 0 ((x :: t).getD (b2 + 1) 0)).set (b2 + 1) ((x :: t).getD 0 0))
          (x :: t)
        simp only [List.getD_cons_succ, List.getD_cons_zero,
          List.set_cons_zero, List.set_cons_succ]
        exact getD_cons_set_perm t b2 x hb2
    | succ a2 =>
      cases b with
      | zero => omega
      | succ b2 =>
        have hstep : swap (x :: t) (a2 + 1) (b2 + 1) = x :: swap t a2 b2 := by
          simp [swap, List.getD_cons_succ, List.set_cons_succ]
        rw [hstep]
        exact (ih a2 b2 (by omega) (by simpa using hb)).cons x

theorem getD_append_cons_self (p : List Int) (x : Int) (s : List Int) :
    (p ++ x :: s).getD p.length 0 = x := by
  rw [List.getD_eq_getElem _ _ (by simp), List.getElem_append_right (le_refl p.length)]
  simp

theorem set_append_add (s : List Int) (n : Nat) (v : Int) :
    ∀ p : List Int, (p ++ s).set (p.length + n) v = p ++ s.set n v := by
  intro p
  induction p with
  | nil => simp
  | cons y q ih =>
    simp only [List.cons_append, List.length_cons]
    have harith : q.length + 1 + n = (q.length + n) + 1 := by omega
    rw [harith, List.set_cons_succ, ih]

theorem take_append_getD_cons_drop (l : List Int) {n : Nat} (h : n < l.length) :
    l.take n ++ l.getD n 0 :: l.drop (n + 1) = l := by
  rw [List.getD_eq_getElem _ _ h, ← List.drop_eq_getElem_cons h, List.take_append_drop]

/-! ## Insertion sort correctness (part of claim C2) -/

theorem insR_nil (key : Int) : insR key [] = [key] := rfl

theorem insR_append (key a : Int) (C : List Int) :
    insR key (C ++ [a]) =
      if key < a then insR key C ++ [a] else (C ++ [a]) ++ [key] := by
  by_cases h : key < a <;> simp [insR, insRAux, h, List.reverse_append]

theorem insR_perm (key : Int) : ∀ C : List Int, (insR key C).Perm (key :: C) := by
  intro C
  induction C using List.reverseRecOn with
  | nil => exact List.Perm.refl _
  | append_singleton C a ih =>
    rw [insR_append]
    by_cases h : key < a
    · rw [if_pos h]
      have hr := ih.append_right [a]
      simpa using hr
    · rw [if_neg h]
      exact List.perm_append_singleton key (C ++ [a])

theorem insR_sorted (key : Int) : ∀ C : List Int,
    List.Pairwise (fun a b => a ≤ b) C →
    List.Pairwise (fun a b => a ≤ b) (insR key C) := by
  intro C
  induction C using List.reverseRecOn with
  | nil =>
    intro _
    rw [insR_nil]
    exact List.pairwise_singleton _ _
  | append_singleton C a ih =>
    intro hp
    rw [List.pairwise_append] at hp
    obtain ⟨hC, _, hcross⟩ := hp
    rw [insR_append]
    by_cases h : key < a
    · rw [if_pos h, List.pairwise_append]
      refine ⟨ih hC, List.pairwise_singleton _ _, ?_⟩
      intro x hx b hb
      simp only [List.mem_singleton] at hb
      subst hb
      rcases List.mem_cons.mp ((insR_perm key C).mem_iff.mp hx) with rfl | hxc
      · exact le_of_lt h
      · exact hcross x hxc b (by simp)
    · rw [if_neg h, List.pairwise_append]
      refine ⟨?_, List.pairwise_singleton _ _, ?_⟩
      · rw [List.pairwise_append]
        exact ⟨hC, List.pairwise_singleton _ _, hcross⟩
      · intro x hx b hb
        simp only [List.mem_singleton] at hb
        subst hb
        rcases List.mem_append.mp hx with hxc | hxa
        · exact le_trans (hcross x hxc a (by simp)) (not_lt.mp h)
        · simp only [List.mem_singleton] at hxa
          subst hxa
          exact not_lt.mp h

/-- The shifting loop followed by the final `arr[j+1] = key` store turns
the segment `C ++ junk :: D` (scanned from position `|C| - 1`) into
`insR key C ++ D`: it inserts `key` into `C` from the right and
overwrites the saved cell. -/
theorem ins_while_decomp :
    ∀ (C : List Int) (junk key : Int) (D : List Int),
      ((ins_while (C ++ junk :: D) key ((C.length : Int) - 1)).1).set
        (((ins_while (C ++ junk :: D) key ((C.length : Int) - 1)).2 + 1)).toNat key =
      insR key C ++ D := by
  intro C
  induction C using List.reverseRecOn with
  | nil =>
    intro junk key D
    rw [ins_while]
    norm_num
    rw [insR_nil]
    rfl
  | append_singleton C a ih =>
    intro junk key D
    have hsplit : (C ++ [a]) ++ junk :: D = C ++ a :: junk :: D := by simp
    have hlen : (((C ++ [a]).length : Int)) - 1 = (C.length : Int) := by
      simp
    have htn : ((C.length : Int)).toNat = C.length := Int.toNat_natCast _
    have hget : (C ++ a :: junk :: D).getD C.length 0 = a :=
      getD_append_cons_self C a (junk :: D)
    rw [hsplit, hlen, ins_while, htn, hget]
    by_cases hka : key < a
    · rw [if_pos ⟨Int.natCast_nonneg _, hka⟩]
      have hset : (C ++ a :: junk :: D).set (C.length + 1) a = C ++ a :: a :: D := by
        have := set_append_add (a :: junk :: D) 1 a C
        simpa using this
      rw [hset]
      have hr : insR key (C ++ [a]) ++ D = insR key C ++ a :: D := by
        rw [insR_append, if_pos hka]
        simp
      rw [hr]
      exact ih a key (a :: D)
    · rw [if_neg (fun hcon => hka hcon.2)]
      have htn2 : ((C.length : Int) + 1).toNat = C.length + 1 := by omega
      rw [htn2]
      have hset : (C ++ a :: junk :: D).set (C.length + 1) key = C ++ a :: key :: D := by
        have := set_append_add (a :: junk :: D) 1 key C
        simpa using this
      rw [hset, insR_append, if_neg hka]
      simp

theorem ins_loop_sorted_perm :
    ∀ (l : List Int) (size i : Nat), size = l.length →
      List.Pairwise (fun a b => a ≤ b) (l.take i) →
      List.Pairwise (fun a b => a ≤ b) (ins_loop l size i) ∧
        (ins_loop l size i).Perm l := by
  intro l size i
  induction l, size, i using ins_loop.induct with
  | case1 l size i hlt ih =>
    intro hsize hpre
    have hil : i < l.length := by omega
    have hl : l.take i ++ l.getD i 0 :: l.drop (i + 1) = l :=
      take_append_getD_cons_drop l hil
    have hstep : ins_step l i = insR (l.getD i 0) (l.take i) ++ l.drop (i + 1) := by
      have hdec := ins_while_decomp (l.take i) (l.getD i 0) (l.getD i 0) (l.drop (i + 1))
      rw [hl] at hdec
      have hlen2 : (l.take i).length = i := by
        rw [List.length_take]
        omega
      rw [hlen2] at hdec
      simp only [ins_step]
      exact hdec
    have hkey_len : (insR (l.getD i 0) (l.take i)).length = i + 1 := by
      rw [(insR_perm (l.getD i 0) (l.take i)).length_eq]
      simp only [List.length_cons, List.length_take]
      omega
    have hstep_perm : (ins_step l i).Perm l := by
      rw [hstep]
      refine ((insR_perm _ _).append_right _).trans ?_
      have heq : (l.getD i 0 :: l.take i) ++ l.drop (i + 1) =
          l.getD i 0 :: (l.take i ++ l.drop (i + 1)) := by simp
      rw [heq]
      have h2 : List.Perm (l.getD i 0 :: (l.take i ++ l.drop (i + 1)))
          (l.take i ++ l.getD i 0 :: l.drop (i + 1)) := List.perm_middle.symm
      rw [hl] at h2
      exact h2
    have hsize2 : size = (ins_step l i).length := by
      rw [hstep_perm.length_eq]
      exact hsize
    have hpre2 : List.Pairwise (fun a b => a ≤ b) ((ins_step l i).take (i + 1)) := by
      rw [hstep, ← hkey_len, List.take_left]
      exact insR_sorted _ _ hpre
    obtain ⟨ha, hb⟩ := ih hsize2 hpre2
    rw [ins_loop, if_pos hlt]
    exact ⟨ha, hb.trans hstep_perm⟩
  | case2 l size i hge =>
    intro hsize hpre
    rw [ins_loop, if_neg hge]
    refine ⟨?_, List.Perm.refl l⟩
    have htake : l.take i = l := List.take_of_length_le (by omega)
    exact htake ▸ hpre

/-! ## Selection sort correctness (part of claim C2) -/

theorem sel_find_spec (l : List Int) (size : Nat) :
    ∀ (j m : Nat), m < size →
      (sel_find l size j m = m ∨
        (j ≤ sel_find l size j m ∧ sel_find l size j m < size)) ∧
      l.getD (sel_find l size j m) 0 ≤ l.getD m 0 ∧
      (∀ k : Nat, j ≤ k → k < size → l.getD (sel_find l size j m) 0 ≤ l.getD k 0) := by
  intro j m
  induction j, m using sel_find.induct l size with
  | case1 j m hlt ih =>
    intro hm
    rw [sel_find, if_pos hlt]
    by_cases hc : l.getD j 0 < l.getD m 0
    · rw [if_pos hc]
      rw [dif_pos hc] at ih
      obtain ⟨ih1, ih2, ih3⟩ := ih hlt
      refine ⟨?_, le_trans ih2 (le_of_lt hc), ?_⟩
      · rcases ih1 with h | h
        · exact Or.inr ⟨by omega, by omega⟩
        · exact Or.inr ⟨by omega, h.2⟩
      · intro k hk1 hk2
        rcases Nat.eq_or_lt_of_le hk1 with he | hgt
        · exact he ▸ ih2
        · exact ih3 k (by omega) hk2
    · rw [if_neg hc]
      rw [dif_neg hc] at ih
      obtain ⟨ih1, ih2, ih3⟩ := ih hm
      refine ⟨?_, ih2, ?_⟩
      · rcases ih1 with h | h
        · exact Or.inl h
        · exact Or.inr ⟨by omega, h.2⟩
      · intro k hk1 hk2
        rcases Nat.eq_or_lt_of_le hk1 with he | hgt
        · exact he ▸ le_trans ih2 (not_lt.mp hc)
        · exact ih3 k (by omega) hk2
  | case2 j m hge =>
    intro _
    rw [sel_find, if_neg hge]
    exact ⟨Or.inl rfl, le_refl _,
      fun k hk1 hk2 => absurd (lt_of_le_of_lt hk1 hk2) hge⟩

theorem sel_loop_sorted_perm :
    ∀ (l : List Int) (size i : Nat), size = l.length →
      (∀ p q : Nat, p ≤ q → q < size → p < i → l.getD p 0 ≤ l.getD q 0) →
      List.Pairwise (fun a b => a ≤ b) (sel_loop l size i) ∧
        (sel_loop l size i).Perm l := by
  intro l size i
  induction l, size, i using sel_loop.induct with
  | case1 l size i hlt ih =>
    intro hsize hinv
    obtain ⟨hr1, hr2, hr3⟩ := sel_find_spec l size (i + 1) i (by omega)
    have hm_le : i ≤ sel_find l size (i + 1) i ∧ sel_find l size (i + 1) i < size := by
      rcases hr1 with h | h
      · omega
      · omega
    have hmin : ∀ k : Nat, i ≤ k → k < size →
        l.getD (sel_find l size (i + 1) i) 0 ≤ l.getD k 0 := by
      intro k hk1 hk2
      rcases Nat.eq_or_lt_of_le hk1 with he | hgt
      · exact he ▸ hr2
      · exact hr3 k (by omega) hk2
    rw [sel_loop, if_pos hlt]
    by_cases hcond : sel_find l size (i + 1) i ≠ i
    · rw [if_pos hcond]
      rw [dif_pos hcond] at ih
      have him : i < sel_find l size (i + 1) i :=
        lt_of_le_of_ne hm_le.1 (Ne.symm hcond)
      have hml : sel_find l size (i + 1) i < l.length := by omega
      have hsize2 : size = (swap l i (sel_find l size (i + 1) i)).length := by
        rw [swap_length]; exact hsize

      have hinv2 : ∀ p q : Nat, p ≤ q → q < size → p < i + 1 →
          (swap l i (sel_find l size (i + 1) i)).getD p 0 ≤
          (swap l i (sel_find l size (i + 1) i)).getD q 0 := by
        intro p q hpq hq hpi
        rcases Nat.lt_or_ge p i with hpi2 | hpi3
        · have hp_eq : (swap l i (sel_find l size (i + 1) i)).getD p 0 = l.getD p 0 :=
            swap_getD_other l (by omega) (by omega)
          by_cases hqi : q = i
          · rw [hp_eq, hqi, swap_getD_fst l (by omega) (Ne.symm hcond)]
            exact hinv p (sel_find l size (i + 1) i) (by omega) (by omega) hpi2
          · by_cases hqm : q = sel_find l size (i + 1) i
            · rw [hp_eq, hqm, swap_getD_snd l (by omega)]
              exact hinv p i (by omega) (by omega) hpi2
            · rw [hp_eq, swap_getD_other l (fun e => hqi e) (fun e => hqm e)]
              exact hinv p q hpq hq hpi2
        · have hpe : p = i := by omega
          rw [hpe]
          have hpi_eq : (swap l i (sel_find l size (i + 1) i)).getD i 0 =
              l.getD (sel_find l size (i + 1) i) 0 :=
            swap_getD_fst l (by omega) (Ne.symm hcond)
          by_cases hqi : q = i
          · rw [hqi]
          · by_cases hqm : q = sel_find l size (i + 1) i
            · rw [hpi_eq, hqm, swap_getD_snd l (by omega)]
              exact hr2
            · rw [hpi_eq, swap_getD_other l (fun e => hqi e) (fun e => hqm e)]
              exact hmin q (by omega) hq
      obtain ⟨ha, hb⟩ := ih hsize2 hinv2
      exact ⟨ha, hb.trans (swap_perm l i (sel_find l size (i + 1) i) him hml)⟩
    · rw [if_neg hcond]
      rw [dif_neg hcond] at ih
      have hmi : sel_find l size (i + 1) i = i := not_ne_iff.mp hcond
      have hinv2 : ∀ p q : Nat, p ≤ q → q < size → p < i + 1 →
          l.getD p 0 ≤ l.getD q 0 := by
        intro p q hpq hq hpi
        rcases Nat.lt_or_ge p i with h2 | h2
        · exact hinv p q hpq hq h2
        · have hpe : p = i := by omega
          rcases Nat.eq_or_lt_of_le hpq with he | hlt2
          · rw [he]
          · have hq2 := hmin q (by omega) hq
            rw [hmi] at hq2
            rw [hpe]
            exact hq2
      exact ih hsize hinv2
  | case2 l size i hge =>
    intro hsize hinv
    rw [sel_loop, if_neg hge]
    refine ⟨?_, List.Perm.refl l⟩
    rw [List.pairwise_iff_getElem]
    intro p q hp hq hpq
    have hres := hinv p q (le_of_lt hpq) (by omega) (by omega)
    rw [List.getD_eq_getElem l 0 hp, List.getD_eq_getElem l 0 hq] at hres
    exact hres

/-! ## Bubble sort correctness (part of claim C2) -/

theorem bpass_length : ∀ (l : List Int) (bound j : Nat) (sw : Bool),
    ((bpass l bound j sw).1).length = l.length := by
  intro l bound j sw
  induction l, bound, j, sw using bpass.induct with
  | case1 l bound j sw hj hswap ih =>
    rw [bpass, if_pos hj, if_pos hswap, ih, swap_length]
  | case2 l bound j sw hj hswap ih =>
    rw [bpass, if_pos hj, if_neg hswap]
    exact ih
  | case3 l bound j sw hj =>
    rw [bpass, if_neg hj]

theorem bpass_perm : ∀ (l : List Int) (bound j : Nat) (sw : Bool),
    bound < l.length → ((bpass l bound j sw).1).Perm l := by
  intro l bound j sw
  induction l, bound, j, sw using bpass.induct with
  | case1 l bound j sw hj hswap ih =>
    intro hb
    rw [bpass, if_pos hj, if_pos hswap]
    have hlen : bound < (swap l j (j + 1)).length := by rw [swap_length]; exact hb
    exact (ih hlen).trans (swap_perm l j (j + 1) (by omega) (by omega))
  | case2 l bound j sw hj hswap ih =>
    intro hb
    rw [bpass, if_pos hj, if_neg hswap]
    exact ih hb
  | case3 l bound j sw hj =>
    intro _
    rw [bpass, if_neg hj]

theorem bpass_suffix : ∀ (l : List Int) (bound j : Nat) (sw : Bool) (k : Nat),
    bound < k → ((bpass l bound j sw).1).getD k 0 = l.getD k 0 := by
  intro l bound j sw
  induction l, bound, j, sw using bpass.induct with
  | case1 l bound j sw hj hswap ih =>
    intro k hk
    rw [bpass, if_pos hj, if_pos hswap, ih k hk]
    exact swap_getD_other l (by omega) (by omega)
  | case2 l bound j sw hj hswap ih =>
    intro k hk
    rw [bpass, if_pos hj, if_neg hswap]
    exact ih k hk
  | case3 l bound j sw hj =>
    intro k _
    rw [bpass, if_neg hj]

theorem bpass_bounded : ∀ (l : List Int) (bound j : Nat) (sw : Bool) (v : Int),
    bound < l.length → (∀ k, k ≤ bound → l.getD k 0 ≤ v) →
    ∀ k, k ≤ bound → ((bpass l bound j sw).1).getD k 0 ≤ v := by
  intro l bound j sw
  induction l, bound, j, sw using bpass.induct with
  | case1 l bound j sw hj hswap ih =>
    intro v hb hv k hk
    rw [bpass, if_pos hj, if_pos hswap]
    refine ih v (by rw [swap_length]; exact hb) ?_ k hk
    intro k2 hk2
    by_cases h1 : k2 = j
    · rw [h1, swap_getD_fst l (by omega) (by omega)]
      exact hv (j + 1) (by omega)
    · by_cases h2 : k2 = j + 1
      · rw [h2, swap_getD_snd l (by omega)]
        exact hv j (by omega)
      · rw [swap_getD_other l h1 h2]
        exact hv k2 hk2
  | case2 l bound j sw hj hswap ih =>
    intro v hb hv k hk
    rw [bpass, if_pos hj, if_neg hswap]
    exact ih v hb hv k hk
  | case3 l bound j sw hj =>
    intro v hb hv k hk
    rw [bpass, if_neg hj]
    exact hv k hk

theorem bpass_max : ∀ (l : List Int) (bound j : Nat) (sw : Bool),
    bound < l.length → j ≤ bound →
    (∀ k, k ≤ j → l.getD k 0 ≤ l.getD j 0) →
    ∀ k, k ≤ bound →
      ((bpass l bound j sw).1).getD k 0 ≤ ((bpass l bound j sw).1).getD bound 0 := by
  intro l bound j sw
  induction l, bound, j, sw using bpass.induct with
  | case1 l bound j sw hj hswap ih =>
    intro hb hjb hmax k hk
    rw [bpass, if_pos hj, if_pos hswap]
    refine ih (by rw [swap_length]; exact hb) (by omega) ?_ k hk
    intro k2 hk2
    have hj1 : (swap l j (j + 1)).getD (j + 1) 0 = l.getD j 0 :=
      swap_getD_snd l (by omega)
    rcases Nat.eq_or_lt_of_le hk2 with he | hlt2
    · rw [he]
    · by_cases h1 : k2 = j
      · rw [h1, swap_getD_fst l (by omega) (by omega), hj1]
        exact le_of_lt hswap
      · rw [swap_getD_other l h1 (by omega), hj1]
        exact hmax k2 (by omega)
  | case2 l bound j sw hj hswap ih =>
    intro hb hjb hmax k hk
    rw [bpass, if_pos hj, if_neg hswap]
    refine ih hb (by omega) ?_ k hk
    intro k2 hk2
    rcases Nat.eq_or_lt_of_le hk2 with he | hlt2
    · rw [he]
    · exact le_trans (hmax k2 (by omega)) (not_lt.mp hswap)
  | case3 l bound j sw hj =>
    intro hb hjb hmax k hk
    rw [bpass, if_neg hj]
    have hjb2 : j = bound := by omega
    rw [← hjb2]
    exact hmax k (by omega)

theorem bpass_stays_swapped : ∀ (l : List Int) (bound j : Nat) (sw : Bool),
    sw = true → (bpass l bound j sw).2 = true := by
  intro l bound j sw
  induction l, bound, j, sw using bpass.induct with
  | case1 l bound j sw hj hswap ih =>
    intro _
    rw [bpass, if_pos hj, if_pos hswap]
    exact ih rfl
  | case2 l bound j sw hj hswap ih =>
    intro hsw
    rw [bpass, if_pos hj, if_neg hswap]
    exact ih hsw
  | case3 l bound j sw hj =>
    intro hsw
    rw [bpass, if_neg hj]
    exact hsw

theorem bpass_no_swap : ∀ (l : List Int) (bound j : Nat) (sw : Bool),
    (bpass l bound j sw).2 = false →
    (bpass l bound j sw).1 = l ∧
      ∀ k, j ≤ k → k < bound → l.getD k 0 ≤ l.getD (k + 1) 0 := by
  intro l bound j sw
  induction l, bound, j, sw using bpass.induct with
  | case1 l bound j sw hj hswap ih =>
    intro hfalse
    exfalso
    rw [bpass, if_pos hj, if_pos hswap,
      bpass_stays_swapped (swap l j (j + 1)) bound (j + 1) true rfl] at hfalse
    exact Bool.noConfusion hfalse
  | case2 l bound j sw hj hswap ih =>
    intro hfalse
    rw [bpass, if_pos hj, if_neg hswap] at hfalse ⊢
    obtain ⟨h1, h2⟩ := ih hfalse
    refine ⟨h1, ?_⟩
    intro k hk1 hk2
    rcases Nat.eq_or_lt_of_le hk1 with he | hlt2
    · rw [← he]
      exact not_lt.mp hswap
    · exact h2 k (by omega) hk2
  | case3 l bound j sw hj =>
    intro _
    rw [bpass, if_neg hj]
    exact ⟨rfl, fun k hk1 hk2 => absurd (by omega : j < bound) hj⟩

theorem adjacent_le (l : List Int) (b : Nat)
    (h : ∀ k : Nat, k < b → l.getD k 0 ≤ l.getD (k + 1) 0) :
    ∀ p q : Nat, p ≤ q → q ≤ b → l.getD p 0 ≤ l.getD q 0 := by
  intro p q
  induction q with
  | zero =>
    intro hpq _
    have hp0 : p = 0 := by omega
    rw [hp0]
  | succ q2 ih =>
    intro hpq hqb
    rcases Nat.eq_or_lt_of_le hpq with he | hlt
    · rw [he]
    · exact le_trans (ih (by omega) (by omega)) (h q2 (by omega))

theorem bub_loop_sorted_perm :
    ∀ (l : List Int) (size i : Nat), size = l.length →
      (∀ p q : Nat, p ≤ q → q < size → size - i ≤ q → l.getD p 0 ≤ l.getD q 0) →
      List.Pairwise (fun a b => a ≤ b) (bub_loop l size i) ∧
        (bub_loop l size i).Perm l := by
  intro l size i
  induction l, size, i using bub_loop.induct with
  | case1 l size i hlt l2 heq ih =>
    intro hsize hinv
    have hb : size - i - 1 < l.length := by omega
    have hl2 : l2 = (bpass l (size - i - 1) 0 false).1 := by rw [heq]
    have hlen2 : l2.length = l.length := by rw [hl2, bpass_length]
    have hperm2 : l2.Perm l := by rw [hl2]; exact bpass_perm l _ 0 false hb
    have hsuffix : ∀ k : Nat, size - i - 1 < k → l2.getD k 0 = l.getD k 0 := by
      intro k hk
      rw [hl2]
      exact bpass_suffix l _ 0 false k hk
    have hmax : ∀ k : Nat, k ≤ size - i - 1 →
        l2.getD k 0 ≤ l2.getD (size - i - 1) 0 := by
      intro k hk
      rw [hl2]
      refine bpass_max l _ 0 false hb (Nat.zero_le _) ?_ k hk
      intro k2 hk2
      have hk0 : k2 = 0 := by omega
      rw [hk0]
    have hbounded : ∀ v : Int, (∀ k, k ≤ size - i - 1 → l.getD k 0 ≤ v) →
        ∀ k, k ≤ size - i - 1 → l2.getD k 0 ≤ v := by
      intro v hv k hk
      rw [hl2]
      exact bpass_bounded l _ 0 false v hb hv k hk
    have hinv2 : ∀ p q : Nat, p ≤ q → q < size → size - (i + 1) ≤ q →
        l2.getD p 0 ≤ l2.getD q 0 := by
      intro p q hpq hq hq2
      rcases Nat.lt_or_ge (size - i - 1) q with hq3 | hq3
      · rw [hsuffix q hq3]
        rcases Nat.lt_or_ge (size - i - 1) p with hp3 | hp3
        · rw [hsuffix p hp3]
          exact hinv p q hpq hq (by omega)
        · refine hbounded (l.getD q 0) ?_ p hp3
          intro k hk
          exact hinv k q (by omega) hq (by omega)
      · have hqb : q = size - i - 1 := by omega
        rw [hqb]
        exact hmax p (by omega)
    have hres : bub_loop l size i = bub_loop l2 size (i + 1) := by
      rw [bub_loop, if_pos hlt, heq]
    obtain ⟨ha, hb2⟩ := ih (by rw [hlen2]; exact hsize) hinv2
    rw [hres]
    exact ⟨ha, hb2.trans hperm2⟩
  | case2 l size i hlt l2 heq =>
    intro hsize hinv
    have hsw : (bpass l (size - i - 1) 0 false).2 = false := by rw [heq]
    obtain ⟨hid, hadj⟩ := bpass_no_swap l (size - i - 1) 0 false hsw
    have hl2 : l2 = l := by
      have := heq
      rw [← hid]
      rw [heq]
    have hres : bub_loop l size i = l := by
      rw [bub_loop, if_pos hlt, heq, hl2]
    rw [hres]
    refine ⟨?_, List.Perm.refl l⟩
    rw [List.pairwise_iff_getElem]
    intro p q hp hq hpq
    have hq_size : q < size := by omega
    rcases le_or_lt q (size - i - 1) with hqb | hqb
    · have hres2 := adjacent_le l (size - i - 1)
        (fun k hk => hadj k (Nat.zero_le k) hk) p q (le_of_lt hpq) hqb
      rw [List.getD_eq_getElem l 0 hp, List.getD_eq_getElem l 0 hq] at hres2
      exact hres2
    · have hres2 := hinv p q (le_of_lt hpq) hq_size (by omega)
      rw [List.getD_eq_getElem l 0 hp, List.getD_eq_getElem l 0 hq] at hres2
      exact hres2
  | case3 l size i hge =>
    intro hsize hinv
    rw [bub_loop, if_neg hge]
    refine ⟨?_, List.Perm.refl l⟩
    rw [List.pairwise_iff_getElem]
    intro p q hp hq hpq
    have hres2 := hinv p q (le_of_lt hpq) (by omega) (by omega)
    rw [List.getD_eq_getElem l 0 hp, List.getD_eq_getElem l 0 hq] at hres2
    exact hres2

/-- C2: each of `bubble_sort`, `selection_sort` and `insertion_sort`
(called as in the demo, with `size` equal to the array length) produces
a non-decreasing array that is a permutation of its input. -/
theorem sorting_correct (l : List Int) :
    (List.Sorted (fun a b => a ≤ b) (bubble_sort l l.length) ∧
      (bubble_sort l l.length).Perm l) ∧
    (List.Sorted (fun a b => a ≤ b) (selection_sort l l.length) ∧
      (selection_sort l l.length).Perm l) ∧
    (List.Sorted (fun a b => a ≤ b) (insertion_sort l l.length) ∧
      (insertion_sort l l.length).Perm l) := by
  refine ⟨?_, ?_, ?_⟩
  · have h := bub_loop_sorted_perm l l.length 0 rfl
      (fun p q hpq hq hq2 => absurd hq2 (by omega))
    exact ⟨h.1, h.2⟩
  · have h := sel_loop_sorted_perm l l.length 0 rfl
      (fun p q hpq hq hpi => absurd hpi (by omega))
    exact ⟨h.1, h.2⟩
  · have htake : List.Pairwise (fun a b => a ≤ b) (l.take 1) := by
      cases l <;> simp
    have h := ins_loop_sorted_perm l l.length 1 rfl htake
    exact ⟨h.1, h.2⟩

end CCode
